import Mathlib

/-!
Shallow embedding of the SmartSearch-FSBI core (`Server/fsbi.py`, with the
health endpoint of `Server/app.py`).

Modelling conventions:
* Python's insertion-ordered dicts become association lists
  (`List (String × _)`); updating an existing key keeps its position, a
  fresh key is appended (`setAssoc` below).
* The two hash families of the source (`FSBIIndex._lex_hashes`, backed by
  SHA-256, and `SemanticProjector.semantic_hashes`, backed by
  floating-point random projections) are opaque deterministic functions
  stored in the index state, just as the projector instance is index-wide
  state in the source.  No claim under verification depends on the
  concrete hash values, only on how the index sets are routed into bit
  sets and scores.
* Python float arithmetic on scores is modelled by exact rational
  arithmetic (`Rat`).
* `bitarray` values become `List Bool` of length `m`; all reads go through
  `i % m` exactly as in the source.
-/

/-- Whitespace test matching Python's `str.strip` / `str.split` (ASCII range). -/
def isSpace (c : Char) : Bool :=
  c == ' ' || c == '\t' || c == '\n' || c == '\r' || c == '\x0b' || c == '\x0c'

/-- Python `str.strip`: drop whitespace from both ends. -/
def pyStrip (s : List Char) : List Char :=
  ((s.dropWhile isSpace).reverse.dropWhile isSpace).reverse

/-- Python `str.lower` (ASCII model). -/
def pyLower (s : List Char) : List Char := s.map Char.toLower

/-- Helper for `pySplit`; `acc` is the current token, reversed. -/
def pySplitAux : List Char → List Char → List (List Char)
  | [], acc => if acc.isEmpty then [] else [acc.reverse]
  | c :: cs, acc =>
    if isSpace c then
      if acc.isEmpty then pySplitAux cs [] else acc.reverse :: pySplitAux cs []
    else pySplitAux cs (c :: acc)

/-- Python `str.split()`: split on whitespace runs, discarding empty tokens. -/
def pySplit (s : List Char) : List (List Char) := pySplitAux s []

/-- Consecutive two-character substrings of a token:
`t[i:i+2]` for `i in range(len(t)-1)`. -/
def bigrams (t : List Char) : List (List Char) :=
  (List.range (t.length - 1)).map (fun i => (t.drop i).take 2)

/-- Python `" ".join`. -/
def joinSpace : List (List Char) → List Char
  | [] => []
  | [t] => t
  | t :: ts => t ++ ' ' :: joinSpace ts

/-- Sliding windows of `L` consecutive tokens joined by single spaces.
Python's `range(len(tokens)-L+1)` is empty when `L > len(tokens)`, which
truncated subtraction in `tokens.length + 1 - L` reproduces. -/
def phrases (tokens : List (List Char)) (L : Nat) : List String :=
  (List.range (tokens.length + 1 - L)).map
    (fun i => String.mk (joinSpace ((tokens.drop i).take L)))

/-- `FSBIIndex.fractal_decompose` (fsbi.py lines 109-133): level 1 the
non-whitespace characters of the stripped, lowercased text; level 2 the
per-token bigrams; level 3 the tokens; level `3 + L - 1` the `L`-token
phrases for `L` from 2 to `max_phrase_len`.  Every level key is present
even when its list is empty, exactly as the `setdefault` calls ensure. -/
def fractal_decompose (text : String) (max_phrase_len : Nat) : List (Nat × List String) :=
  let t := pyLower (pyStrip text.toList)
  let tokens := pySplit t
  [(1, (t.filter (fun c => !isSpace c)).map (fun c => String.mk [c])),
   (2, tokens.flatMap (fun tok => (bigrams tok).map String.mk)),
   (3, tokens.map String.mk)]
  ++ (List.range (max_phrase_len - 1)).map
      (fun j => (3 + (j + 2) - 1, phrases tokens (j + 2)))

/-- Scalar state of `BloomNode` (fsbi.py lines 71-78).  The `children`
dict of the source is only ever populated on per-document root nodes, so
it is carried by `IndexTree` below rather than by a nested inductive. -/
structure BloomNode where
  m : Nat
  bits : List Bool
  level : Nat
  name : String
  deriving DecidableEq

/-- Fresh all-zero bit vector of length `m`. -/
def zeroBits (m : Nat) : List Bool := List.replicate m false

/-- `BloomNode.__init__`: `m` bits, all zero. -/
def BloomNode.new (m_bits level : Nat) (name : String) : BloomNode :=
  ⟨m_bits, zeroBits m_bits, level, name⟩

/-- Read bit `i` of a bit vector; out-of-range reads as 0 (every vector the
code builds has length `m` and is read at `i % m`, so this never fires). -/
def bitAt (b : List Bool) (i : Nat) : Bool := b.getD i false

/-- The loop body of `insert_indexes`: set bit `i % m` for each `i`. -/
def insBits (m : Nat) (bits : List Bool) (idxs : List Nat) : List Bool :=
  idxs.foldl (fun b i => b.set (i % m) true) bits

/-- `BloomNode.insert_indexes` (fsbi.py lines 80-82). -/
def BloomNode.insert_indexes (n : BloomNode) (idxs : List Nat) : BloomNode :=
  { n with bits := insBits n.m n.bits idxs }

/-- `BloomNode.match_score` (fsbi.py lines 95-97): the fraction of the
given indices whose bit is set, 0 for an empty index list. -/
def BloomNode.match_score (n : BloomNode) (idxs : List Nat) : Rat :=
  let hits := (idxs.filter (fun i => bitAt n.bits (i % n.m))).length
  if idxs.length > 0 then (hits : Rat) / (idxs.length : Rat) else 0

/-- `BloomNode.noisy_bits` (fsbi.py lines 84-93).  The stream of draws
`random.random() < flip_prob` is abstracted as `coin`; the source copies
the bit vector first and flips the copy, so the embedding returns the new
vector and leaves the node untouched. -/
def BloomNode.noisy_bits (n : BloomNode) (flip_prob : Rat) (coin : Nat → Bool) : List Bool :=
  let noisy := n.bits
  if flip_prob ≤ 0 then noisy
  else (List.range n.m).foldl (fun b i => if coin i then b.set i (!bitAt b i) else b) noisy

/-- Opaque caller-supplied metadata mapping. -/
abbrev Meta := List (String × String)

/-- Stored document record `{"text": text, "meta": metadata or {}}`
(fsbi.py line 159). -/
structure DocEntry where
  text : String
  meta : Meta
  deriving DecidableEq

/-- Per-document tree: the root `BloomNode` together with its `children`
dict (child key → child `BloomNode`). -/
structure IndexTree where
  root : BloomNode
  children : List (String × BloomNode)
  deriving DecidableEq

/-- Python dict update `d[k] = v`: replace the first binding of `k` in
place (insertion-ordered dicts keep the original position), or append a
fresh binding at the end. -/
def setAssoc {α : Type} (l : List (String × α)) (k : String) (v : α) : List (String × α) :=
  match l with
  | [] => [(k, v)]
  | (k', v') :: rest => if k' = k then (k, v) :: rest else (k', v') :: setAssoc rest k v

/-- State of `FSBIIndex` (fsbi.py lines 99-106).  `lexHash s k` stands for
`self._lex_hashes(s, k)` and `semHash s k` for
`self.projector.semantic_hashes(s, k, self.m)`; both are deterministic
pure functions in the source (SHA-256 resp. seeded projections). -/
structure FSBIIndex where
  m : Nat
  k_lex : Nat
  k_sem : Nat
  lexHash : String → Nat → List Nat
  semHash : String → Nat → List Nat
  docs : List (String × DocEntry)
  trees : List (String × IndexTree)

/-- `FSBIIndex.__init__`: configuration plus empty document and tree maps. -/
def FSBIIndex.mkIndex (m k_lex k_sem : Nat)
    (lexHash semHash : String → Nat → List Nat) : FSBIIndex :=
  ⟨m, k_lex, k_sem, lexHash, semHash, [], []⟩

/-- Child key `f"l{lvl}:{subseq}"` (fsbi.py lines 154 and 187). -/
def child_name (lvl : Nat) (subseq : String) : String :=
  "l" ++ toString lvl ++ ":" ++ subseq

/-- Combined index set of a subsequence, `lex_idxs + sem_idxs`
(fsbi.py lines 150-151, 176, 188). -/
def FSBIIndex.hashesOf (idx : FSBIIndex) (s : String) : List Nat :=
  idx.lexHash s idx.k_lex ++ idx.semHash s idx.k_sem

/-- The tree-building loop of `index_document` (fsbi.py lines 143-157):
for every `(level, subsequence)` of the decomposition, insert the combined
index set into the root and into the lazily created child keyed by
`child_name level subsequence`. -/
def FSBIIndex.buildTree (idx : FSBIIndex) (doc_id : String) (text : String) : IndexTree :=
  (fractal_decompose text 3).foldl
    (fun tr lvl_ss =>
      lvl_ss.2.foldl
        (fun tr subseq =>
          let ids := idx.hashesOf subseq
          let root := tr.root.insert_indexes ids
          let cn := child_name lvl_ss.1 subseq
          let child := (List.lookup cn tr.children).getD (BloomNode.new idx.m lvl_ss.1 cn)
          ⟨root, setAssoc tr.children cn (child.insert_indexes ids)⟩)
        tr)
    ⟨BloomNode.new idx.m 0 (doc_id ++ "_root"), []⟩

/-- `FSBIIndex.index_document` (fsbi.py lines 142-160): build the tree for
the text and store/overwrite the document entry and the tree. -/
def FSBIIndex.index_document (idx : FSBIIndex) (doc_id : String) (text : String)
    (metadata : Option Meta) : FSBIIndex :=
  { idx with
    docs := setAssoc idx.docs doc_id ⟨text, metadata.getD []⟩,
    trees := setAssoc idx.trees doc_id (idx.buildTree doc_id text) }

/-- The root-stage counting loop of `query` (fsbi.py lines 172-178):
accumulate `(root_hits, root_total)` over every level and subsequence. -/
def FSBIIndex.rootCounts (idx : FSBIIndex) (root : BloomNode)
    (qd : List (Nat × List String)) : Nat × Nat :=
  qd.foldl
    (fun p lvl_ss =>
      lvl_ss.2.foldl
        (fun p s =>
          let ids := idx.hashesOf s
          (p.1 + (ids.filter (fun i => bitAt root.bits (i % idx.m))).length,
           p.2 + ids.length))
        p)
    (0, 0)

/-- `root_score` (fsbi.py line 179): `root_hits / root_total`, 0 when the
total is 0. -/
def FSBIIndex.root_score (idx : FSBIIndex) (root : BloomNode)
    (qd : List (Nat × List String)) : Rat :=
  let c := idx.rootCounts root qd
  if c.2 > 0 then (c.1 : Rat) / (c.2 : Rat) else 0

/-- Default-aware threshold lookup `thresholds.get(0, 0.01)`
(fsbi.py line 180). -/
def thresh0 (thresholds : List (Nat × Rat)) : Rat :=
  (List.lookup 0 thresholds).getD (1 / 100)

/-- Weight `w = 1.0 / (1 + lvl)` (fsbi.py line 194). -/
def weight (lvl : Nat) : Rat := 1 / (1 + (lvl : Rat))

/-- The refinement loop of `query` (fsbi.py lines 183-196): accumulate
`(score, total_w)`, scoring each subsequence by its child when the child
key exists and by the root otherwise. -/
def FSBIIndex.refineAccum (idx : FSBIIndex) (tr : IndexTree)
    (qd : List (Nat × List String)) : Rat × Rat :=
  qd.foldl
    (fun p lvl_ss =>
      lvl_ss.2.foldl
        (fun p s =>
          let idxs := idx.hashesOf s
          let mm := match List.lookup (child_name lvl_ss.1 s) tr.children with
                    | some child => child.match_score idxs
                    | none => tr.root.match_score idxs
          (p.1 + weight lvl_ss.1 * mm, p.2 + weight lvl_ss.1))
        p)
    (0, 0)

/-- `final_score` (fsbi.py line 197): `score / total_w`, 0 when the weight
total is 0. -/
def FSBIIndex.final_score (idx : FSBIIndex) (tr : IndexTree)
    (qd : List (Nat × List String)) : Rat :=
  let a := idx.refineAccum tr qd
  if a.2 > 0 then a.1 / a.2 else 0

/-- The candidate loop of `query` (fsbi.py lines 169-198): iterate the
trees in insertion order, skip a document when its root score is below the
level-0 threshold, otherwise append `(doc_id, final_score)`. -/
def FSBIIndex.candidatesFor (idx : FSBIIndex) (qd : List (Nat × List String))
    (thresholds : List (Nat × Rat)) : List (String × Rat) :=
  idx.trees.foldl
    (fun acc dt =>
      if idx.root_score dt.2.root qd < thresh0 thresholds then acc
      else acc ++ [(dt.1, idx.final_score dt.2 qd)])
    []

/-- Python's stable `list.sort(key=lambda x: x[1], reverse=True)`
(fsbi.py line 200): a stable sort by score descending. -/
def sortDesc (l : List (String × Rat)) : List (String × Rat) :=
  l.mergeSort (fun a b => decide (b.2 ≤ a.2))

/-- `FSBIIndex.query` (fsbi.py lines 162-201). -/
def FSBIIndex.query (idx : FSBIIndex) (query_text : String) (top_k : Nat)
    (thresholds : Option (List (Nat × Rat))) : List (String × Rat) :=
  let th := thresholds.getD []
  let qd := fractal_decompose query_text 3
  (sortDesc (idx.candidatesFor qd th)).take top_k

/-- `FSBIIndex.get_doc` (fsbi.py lines 203-204). -/
def FSBIIndex.get_doc (idx : FSBIIndex) (doc_id : String) : Option DocEntry :=
  List.lookup doc_id idx.docs

/-- Document count as computed by the health endpoint, `len(INDEX.docs)`
(app.py line 11); the specification names this operation
`document_count`. -/
def FSBIIndex.document_count (idx : FSBIIndex) : Nat := idx.docs.length

/-- The health endpoint response `{"status": "ok", "docs": len(INDEX.docs)}`
(app.py lines 9-11). -/
def health (idx : FSBIIndex) : String × Nat := ("ok", idx.docs.length)

/-- A sequence of `index_document` calls, applied in order. -/
def applyOps (idx : FSBIIndex) (ops : List (String × String × Option Meta)) : FSBIIndex :=
  ops.foldl (fun i op => i.index_document op.1 op.2.1 op.2.2) idx

/-- Flattened `(level, subsequence)` pairs of a decomposition, in loop order. -/
def qpairs (qd : List (Nat × List String)) : List (Nat × String) :=
  qd.flatMap (fun ls => ls.2.map (fun s => (ls.1, s)))

/-- Pooled combined index list of a whole query decomposition: every index
produced across every level and subsequence, with multiplicity. -/
def pooledIds (idx : FSBIIndex) (qd : List (Nat × List String)) : List Nat :=
  (qpairs qd).flatMap (fun x => idx.hashesOf x.2)

/-- Specification reading of the pruning score: number of pooled indices
whose bit is set in the root, divided by the total count pooled, 0 when
nothing was pooled. -/
def rootScoreSpec (idx : FSBIIndex) (root : BloomNode)
    (qd : List (Nat × List String)) : Rat :=
  let pooled := pooledIds idx qd
  let hits := (pooled.filter (fun i => bitAt root.bits (i % idx.m))).length
  if pooled.length > 0 then (hits : Rat) / (pooled.length : Rat) else 0

/-- Specification reading of one refinement term: the candidate's child
keyed by `(level, subsequence)` scores the combined index set when such a
child exists, the root scores it otherwise. -/
def matchSpec (idx : FSBIIndex) (tr : IndexTree) (x : Nat × String) : Rat :=
  match List.lookup (child_name x.1 x.2) tr.children with
  | some child => child.match_score (idx.hashesOf x.2)
  | none => tr.root.match_score (idx.hashesOf x.2)

/-- Specification reading of the refinement score: `Σ w·match / Σ w` over
the `(level, subsequence)` pairs with `w = 1/(1+level)`, or 0 when the sum
of weights is 0. -/
def finalScoreSpec (idx : FSBIIndex) (tr : IndexTree)
    (qd : List (Nat × List String)) : Rat :=
  let sw := ((qpairs qd).map (fun x => weight x.1 * matchSpec idx tr x)).sum
  let tw := ((qpairs qd).map (fun x => weight x.1)).sum
  if tw = 0 then 0 else sw / tw

/-- Root-superset invariant of a tree: root and children all have `m`
bits, and every set bit of every child is also set in the root. -/
def TreeInv (m : Nat) (tr : IndexTree) : Prop :=
  tr.root.m = m ∧ tr.root.bits.length = m ∧
    ∀ p ∈ tr.children, p.2.m = m ∧ p.2.bits.length = m ∧
      ∀ j, bitAt p.2.bits j = true → bitAt tr.root.bits j = true

/-! ### Small concrete fixtures used by the witness theorems -/

/-- Tiny deterministic stand-in for `_lex_hashes` in concrete runs. -/
def wLex : String → Nat → List Nat := fun s _ => [s.length]

/-- Tiny deterministic stand-in for `semantic_hashes` in concrete runs. -/
def wSem : String → Nat → List Nat := fun _ _ => [1]

/-- A fresh 4-bit index instance. -/
def wBase : FSBIIndex := FSBIIndex.mkIndex 4 1 1 wLex wSem

/-- `wBase` after indexing one two-character document. -/
def wIdx : FSBIIndex := wBase.index_document "d1" "ab" none

/-- The tree stored for that document. -/
def wTr : IndexTree := wBase.buildTree "d1" "ab"

/-- The level-1 child of `wTr` for the character `"a"`. -/
def wChild : BloomNode := ⟨4, [false, true, false, false], 1, "l1:a"⟩

/-- A two-bit node with bit 0 set. -/
def wNode : BloomNode := ⟨2, [true, false], 0, "n"⟩

/-! ### Bit-vector lemmas -/

theorem bitAt_set (b : List Bool) (i j : Nat) (x : Bool) :
    bitAt (b.set i x) j = if i = j ∧ i < b.length then x else bitAt b j := by
  simp only [bitAt, List.getD_eq_getElem?_getD, List.getElem?_set]
  by_cases hij : i = j
  · subst hij
    by_cases hlen : i < b.length
    · simp [hlen]
    · simp [hlen, List.getElem?_eq_none (Nat.le_of_not_lt hlen)]
  · simp [hij]

theorem bitAt_zeroBits (m j : Nat) : bitAt (zeroBits m) j = false := by
  simp only [bitAt, zeroBits, List.getD_eq_getElem?_getD, List.getElem?_replicate]
  split <;> simp

theorem length_insBits (m : Nat) (ids : List Nat) : ∀ b : List Bool,
    (insBits m b ids).length = b.length := by
  induction ids with
  | nil => intro b; rfl
  | cons i ids ih =>
    intro b
    simp only [insBits, List.foldl_cons] at *
    rw [ih (b.set (i % m) true), List.length_set]

theorem bitAt_insBits (m : Nat) (ids : List Nat) : ∀ (b : List Bool) (j : Nat),
    bitAt (insBits m b ids) j = true ↔
      bitAt b j = true ∨ ∃ i ∈ ids, i % m = j ∧ j < b.length := by
  induction ids with
  | nil => intro b j; simp [insBits]
  | cons i ids ih =>
    intro b j
    simp only [insBits, List.foldl_cons] at *
    rw [ih (b.set (i % m) true) j]
    rw [bitAt_set]
    constructor
    · rintro (h | ⟨i', hi', hj, hlen⟩)
      · split at h
        · rename_i hc
          exact Or.inr ⟨i, List.mem_cons_self i ids, hc.1, hc.1 ▸ hc.2⟩
        · exact Or.inl h
      · exact Or.inr ⟨i', List.mem_cons_of_mem i hi', hj, by
          simpa [List.length_set] using hlen⟩
    · rintro (h | ⟨i', hi', hj, hlen⟩)
      · left
        split
        · rfl
        · exact h
      · rcases List.mem_cons.mp hi' with rfl | hi'
        · left
          rw [if_pos ⟨hj, hj ▸ hlen⟩]
        · exact Or.inr ⟨i', hi', hj, by simpa [List.length_set] using hlen⟩

theorem bitAt_insBits_mono (m : Nat) (ids : List Nat) (b : List Bool) (j : Nat)
    (h : bitAt b j = true) : bitAt (insBits m b ids) j = true :=
  (bitAt_insBits m ids b j).mpr (Or.inl h)

theorem bitAt_insBits_of_mem (m : Nat) (ids : List Nat) (b : List Bool) (i : Nat)
    (hi : i ∈ ids) (hlen : i % m < b.length) :
    bitAt (insBits m b ids) (i % m) = true :=
  (bitAt_insBits m ids b (i % m)).mpr (Or.inr ⟨i, hi, rfl, hlen⟩)

theorem count_set_true_le : ∀ (b : List Bool) (i : Nat),
    b.count true ≤ (b.set i true).count true := by
  intro b
  induction b with
  | nil => intro i; simp
  | cons c cs ih =>
    intro i
    cases i with
    | zero =>
      simp only [List.set]
      cases c <;> simp [List.count_cons]
    | succ i =>
      simp only [List.set]
      have := ih i
      cases c <;> simpa [List.count_cons] using this

theorem count_insBits_le (m : Nat) (ids : List Nat) : ∀ b : List Bool,
    b.count true ≤ (insBits m b ids).count true := by
  induction ids with
  | nil => intro b; exact Nat.le_refl _
  | cons i ids ih =>
    intro b
    simp only [insBits, List.foldl_cons] at *
    exact Nat.le_trans (count_set_true_le b (i % m)) (ih (b.set (i % m) true))

/-! ### Association list (Python dict) lemmas -/

theorem lookup_cons_eq_ite {α : Type} (a k : String) (v : α) (l : List (String × α)) :
    List.lookup a ((k, v) :: l) = if a = k then some v else List.lookup a l := by
  rw [List.lookup_cons]
  by_cases h : a = k
  · simp [h]
  · simp [beq_eq_false_iff_ne.mpr h, h]

theorem lookup_setAssoc_self {α : Type} (l : List (String × α)) (k : String) (v : α) :
    List.lookup k (setAssoc l k v) = some v := by
  induction l with
  | nil => simp [setAssoc, lookup_cons_eq_ite]
  | cons p rest ih =>
    obtain ⟨k', v'⟩ := p
    by_cases h : k' = k
    · simp [setAssoc, h, lookup_cons_eq_ite]
    · simp only [setAssoc, if_neg h, lookup_cons_eq_ite, if_neg (Ne.symm h)]
      exact ih

theorem lookup_setAssoc_ne {α : Type} (l : List (String × α)) (k k' : String) (v : α)
    (h : k' ≠ k) : List.lookup k' (setAssoc l k v) = List.lookup k' l := by
  induction l with
  | nil => simp [setAssoc, lookup_cons_eq_ite, h]
  | cons p rest ih =>
    obtain ⟨k₀, v₀⟩ := p
    by_cases h0 : k₀ = k
    · subst h0
      simp [setAssoc, lookup_cons_eq_ite, h]
    · simp only [setAssoc, if_neg h0, lookup_cons_eq_ite]
      by_cases h1 : k' = k₀
      · simp [h1]
      · simp only [if_neg h1]
        exact ih

theorem setAssoc_setAssoc {α : Type} (l : List (String × α)) (k : String) (v w : α) :
    setAssoc (setAssoc l k v) k w = setAssoc l k w := by
  induction l with
  | nil => simp [setAssoc]
  | cons p rest ih =>
    obtain ⟨k', v'⟩ := p
    by_cases h : k' = k
    · simp [setAssoc, h]
    · simp [setAssoc, h, ih]

theorem mem_setAssoc {α : Type} (l : List (String × α)) (k : String) (v : α)
    (x : String × α) (hx : x ∈ setAssoc l k v) : x = (k, v) ∨ x ∈ l := by
  induction l with
  | nil => simpa [setAssoc] using hx
  | cons p rest ih =>
    obtain ⟨k', v'⟩ := p
    by_cases h : k' = k
    · simp only [setAssoc, if_pos h] at hx
      rcases List.mem_cons.mp hx with rfl | hx
      · exact Or.inl rfl
      · exact Or.inr (List.mem_cons_of_mem _ hx)
    · simp only [setAssoc, if_neg h] at hx
      rcases List.mem_cons.mp hx with rfl | hx
      · exact Or.inr (List.mem_cons_self _ _)
      · rcases ih hx with h' | h'
        · exact Or.inl h'
        · exact Or.inr (List.mem_cons_of_mem _ h')

theorem length_setAssoc {α : Type} (l : List (String × α)) (k : String) (v : α) :
    (setAssoc l k v).length =
      if (List.lookup k l).isSome then l.length else l.length + 1 := by
  induction l with
  | nil => simp [setAssoc]
  | cons p rest ih =>
    obtain ⟨k', v'⟩ := p
    by_cases h : k' = k
    · subst h
      simp [setAssoc, lookup_cons_eq_ite]
    · simp only [setAssoc, if_neg h, lookup_cons_eq_ite, if_neg (Ne.symm h),
        List.length_cons, ih]
      split <;> simp

/-! ### Fold-to-sum lemmas for the query loops -/

theorem foldl_pair_add {α M N : Type} [AddMonoid M] [AddMonoid N]
    (f : α → M) (g : α → N) :
    ∀ (l : List α) (p : M × N),
      l.foldl (fun p a => (p.1 + f a, p.2 + g a)) p
        = (p.1 + (l.map f).sum, p.2 + (l.map g).sum) := by
  intro l
  induction l with
  | nil => intro p; simp
  | cons a l ih =>
    intro p
    simp [List.foldl_cons, ih, add_assoc]

theorem foldl_nested_pair_add {M N : Type} [AddMonoid M] [AddMonoid N]
    (f : Nat → String → M) (g : Nat → String → N) :
    ∀ (qd : List (Nat × List String)) (p : M × N),
      qd.foldl
        (fun p ls => ls.2.foldl (fun p s => (p.1 + f ls.1 s, p.2 + g ls.1 s)) p) p
        = (p.1 + ((qpairs qd).map (fun x => f x.1 x.2)).sum,
           p.2 + ((qpairs qd).map (fun x => g x.1 x.2)).sum) := by
  intro qd
  induction qd with
  | nil => intro p; simp [qpairs]
  | cons ls qd ih =>
    intro p
    rw [List.foldl_cons, foldl_pair_add (f ls.1) (g ls.1), ih]
    simp [qpairs, add_assoc, List.map_map, Function.comp_def]

/-! ### Bridging theorems from the loop accumulators to the formulas -/

theorem length_filter_flatMap {α β : Type} (l : List α) (h : α → List β) (p : β → Bool) :
    ((l.flatMap h).filter p).length = (l.map (fun a => ((h a).filter p).length)).sum := by
  rw [List.filter_flatMap, List.length_flatMap]
  simp [Function.comp_def]

theorem rootCounts_eq (idx : FSBIIndex) (root : BloomNode) (qd : List (Nat × List String)) :
    idx.rootCounts root qd
      = (((pooledIds idx qd).filter (fun i => bitAt root.bits (i % idx.m))).length,
         (pooledIds idx qd).length) := by
  simp only [FSBIIndex.rootCounts]
  rw [foldl_nested_pair_add
    (fun _ s => ((idx.hashesOf s).filter (fun i => bitAt root.bits (i % idx.m))).length)
    (fun _ s => (idx.hashesOf s).length) qd (0, 0)]
  simp [pooledIds, length_filter_flatMap, List.length_flatMap, Function.comp_def]

theorem root_score_eq_spec (idx : FSBIIndex) (root : BloomNode)
    (qd : List (Nat × List String)) :
    idx.root_score root qd = rootScoreSpec idx root qd := by
  simp only [FSBIIndex.root_score, rootScoreSpec, rootCounts_eq]

theorem refineAccum_eq (idx : FSBIIndex) (tr : IndexTree) (qd : List (Nat × List String)) :
    idx.refineAccum tr qd
      = (((qpairs qd).map (fun x => weight x.1 * matchSpec idx tr x)).sum,
         ((qpairs qd).map (fun x => weight x.1)).sum) := by
  simp only [FSBIIndex.refineAccum]
  rw [foldl_nested_pair_add
    (fun lvl s => weight lvl *
      (match List.lookup (child_name lvl s) tr.children with
       | some child => child.match_score (idx.hashesOf s)
       | none => tr.root.match_score (idx.hashesOf s)))
    (fun lvl _ => weight lvl) qd (0, 0)]
  simp [matchSpec]

/-! ### Score bounds and candidate-loop characterization -/

theorem weight_pos (lvl : Nat) : 0 < weight lvl := by
  unfold weight
  positivity

theorem match_score_nonneg (n : BloomNode) (idxs : List Nat) :
    0 ≤ n.match_score idxs := by
  simp only [BloomNode.match_score]
  split
  · positivity
  · exact le_refl 0

theorem match_score_le_one (n : BloomNode) (idxs : List Nat) :
    n.match_score idxs ≤ 1 := by
  simp only [BloomNode.match_score]
  split
  · rename_i h
    rw [div_le_one (by exact_mod_cast h)]
    exact_mod_cast List.length_filter_le _ _
  · exact zero_le_one

theorem matchSpec_nonneg (idx : FSBIIndex) (tr : IndexTree) (x : Nat × String) :
    0 ≤ matchSpec idx tr x := by
  unfold matchSpec
  cases List.lookup (child_name x.1 x.2) tr.children
  · exact match_score_nonneg _ _
  · exact match_score_nonneg _ _

theorem matchSpec_le_one (idx : FSBIIndex) (tr : IndexTree) (x : Nat × String) :
    matchSpec idx tr x ≤ 1 := by
  unfold matchSpec
  cases List.lookup (child_name x.1 x.2) tr.children
  · exact match_score_le_one _ _
  · exact match_score_le_one _ _

theorem sum_weights_nonneg (qd : List (Nat × List String)) :
    0 ≤ ((qpairs qd).map (fun x => weight x.1)).sum := by
  apply List.sum_nonneg
  intro b hb
  obtain ⟨a, _, rfl⟩ := List.mem_map.mp hb
  exact le_of_lt (weight_pos a.1)

theorem sum_weights_eq_zero_iff (qd : List (Nat × List String)) :
    ((qpairs qd).map (fun x => weight x.1)).sum = 0 ↔ qpairs qd = [] := by
  constructor
  · intro hsum
    cases hq : qpairs qd with
    | nil => rfl
    | cons a l =>
      rw [hq, List.map_cons, List.sum_cons] at hsum
      have h1 : 0 < weight a.1 := weight_pos a.1
      have h2 : 0 ≤ (l.map (fun x => weight x.1)).sum := by
        apply List.sum_nonneg
        intro b hb
        obtain ⟨c, _, rfl⟩ := List.mem_map.mp hb
        exact le_of_lt (weight_pos c.1)
      linarith
  · intro h
    simp [h]

theorem qpairs_eq_nil_iff (qd : List (Nat × List String)) :
    qpairs qd = [] ↔ ∀ ls ∈ qd, ls.2 = [] := by
  simp [qpairs, List.flatMap_eq_nil_iff]

theorem final_score_eq_spec (idx : FSBIIndex) (tr : IndexTree)
    (qd : List (Nat × List String)) :
    idx.final_score tr qd = finalScoreSpec idx tr qd := by
  simp only [FSBIIndex.final_score, finalScoreSpec, refineAccum_eq]
  by_cases h : ((qpairs qd).map (fun x => weight x.1)).sum = 0
  · simp [h]
  · rw [if_pos (lt_of_le_of_ne (sum_weights_nonneg qd) (Ne.symm h)), if_neg h]

theorem final_score_nonneg (idx : FSBIIndex) (tr : IndexTree)
    (qd : List (Nat × List String)) : 0 ≤ idx.final_score tr qd := by
  simp only [FSBIIndex.final_score, refineAccum_eq]
  split
  · apply div_nonneg _ (sum_weights_nonneg qd)
    apply List.sum_nonneg
    intro b hb
    obtain ⟨a, _, rfl⟩ := List.mem_map.mp hb
    exact mul_nonneg (le_of_lt (weight_pos a.1)) (matchSpec_nonneg idx tr a)
  · exact le_refl 0

theorem final_score_le_one (idx : FSBIIndex) (tr : IndexTree)
    (qd : List (Nat × List String)) : idx.final_score tr qd ≤ 1 := by
  simp only [FSBIIndex.final_score, refineAccum_eq]
  split
  · rename_i h
    rw [div_le_one h]
    calc ((qpairs qd).map (fun x => weight x.1 * matchSpec idx tr x)).sum
        ≤ ((qpairs qd).map (fun x => weight x.1)).sum := by
          apply List.sum_le_sum
          intro a _
          calc weight a.1 * matchSpec idx tr a
              ≤ weight a.1 * 1 :=
                mul_le_mul_of_nonneg_left (matchSpec_le_one idx tr a)
                  (le_of_lt (weight_pos a.1))
            _ = weight a.1 := mul_one _
      _ = ((qpairs qd).map (fun x => weight x.1)).sum := rfl
  · exact zero_le_one

theorem candidatesFor_eq (idx : FSBIIndex) (qd : List (Nat × List String))
    (th : List (Nat × Rat)) :
    idx.candidatesFor qd th
      = (idx.trees.filter
          (fun dt => !decide (idx.root_score dt.2.root qd < thresh0 th))).map
          (fun dt => (dt.1, idx.final_score dt.2 qd)) := by
  unfold FSBIIndex.candidatesFor
  suffices h : ∀ (l : List (String × IndexTree)) (acc : List (String × Rat)),
      l.foldl
        (fun acc dt =>
          if idx.root_score dt.2.root qd < thresh0 th then acc
          else acc ++ [(dt.1, idx.final_score dt.2 qd)]) acc
        = acc ++ (l.filter
            (fun dt => !decide (idx.root_score dt.2.root qd < thresh0 th))).map
            (fun dt => (dt.1, idx.final_score dt.2 qd)) by
    simpa using h idx.trees []
  intro l
  induction l with
  | nil => intro acc; simp
  | cons dt l ih =>
    intro acc
    by_cases h : idx.root_score dt.2.root qd < thresh0 th
    · simp [List.foldl_cons, h, ih, List.filter_cons]
    · simp [List.foldl_cons, h, ih, List.filter_cons]

/-! ### Stable descending sort lemmas -/

theorem sortDesc_le_trans (a b c : String × Rat)
    (h1 : decide (b.2 ≤ a.2) = true) (h2 : decide (c.2 ≤ b.2) = true) :
    decide (c.2 ≤ a.2) = true := by
  simp only [decide_eq_true_eq] at *
  exact le_trans h2 h1

theorem sortDesc_le_total (a b : String × Rat) :
    (decide (b.2 ≤ a.2) || decide (a.2 ≤ b.2)) = true := by
  rcases le_total b.2 a.2 with h | h <;> simp [h]

theorem sortDesc_pairwise (l : List (String × Rat)) :
    (sortDesc l).Pairwise (fun a b => b.2 ≤ a.2) := by
  unfold sortDesc
  exact (List.sorted_mergeSort sortDesc_le_trans sortDesc_le_total l).imp
    (fun hab => of_decide_eq_true hab)

theorem sortDesc_perm (l : List (String × Rat)) : List.Perm (sortDesc l) l :=
  List.mergeSort_perm l _

/-- Stability of the sort: the entries carrying any fixed score value
appear in the sorted output exactly as they appear in the input. -/
theorem sortDesc_filter_eq (l : List (String × Rat)) (v : Rat) :
    (sortDesc l).filter (fun p => decide (p.2 = v))
      = l.filter (fun p => decide (p.2 = v)) := by
  have hpw : (l.filter (fun p => decide (p.2 = v))).Pairwise
      (fun a b : String × Rat => decide (b.2 ≤ a.2) = true) := by
    apply List.pairwise_of_forall_mem_list
    intro a ha b hb
    have ha' : a.2 = v := by simpa using (List.mem_filter.mp ha).2
    have hb' : b.2 = v := by simpa using (List.mem_filter.mp hb).2
    simp [ha', hb']
  have hsub : List.Sublist (l.filter (fun p => decide (p.2 = v))) (sortDesc l) :=
    List.sublist_mergeSort sortDesc_le_trans sortDesc_le_total hpw
      (List.filter_sublist l)
  have hsub2 : List.Sublist (l.filter (fun p => decide (p.2 = v)))
      ((sortDesc l).filter (fun p => decide (p.2 = v))) := by
    have := List.Sublist.filter (fun p : String × Rat => decide (p.2 = v)) hsub
    simpa [List.filter_filter] using this
  have hlen : ((sortDesc l).filter (fun p => decide (p.2 = v))).length
      = (l.filter (fun p => decide (p.2 = v))).length :=
    ((sortDesc_perm l).filter _).length_eq
  exact (List.Sublist.eq_of_length hsub2 hlen.symm).symm

/-! ### Claim theorems C1 - C3 -/

/-- Claim C1: for every query over a non-pruned candidate document, the
refinement score paired with the candidate is exactly the specification
formula: each `(level, subsequence)` pair's combined lexical+semantic
index set is scored by the child BitSet keyed by `(level, subsequence)`
when it exists and by the root BitSet otherwise, each match is weighted by
`w = 1/(1+level)`, and the final score is `Σ w·match / Σ w`, or 0 when
`Σ w = 0`, which happens exactly when the query decomposition is entirely
empty. -/
theorem claim1_refinement_score (idx : FSBIIndex) (q : String)
    (th : List (Nat × Rat)) (d : String) (tr : IndexTree)
    (hmem : (d, tr) ∈ idx.trees)
    (hsurv : ¬ idx.root_score tr.root (fractal_decompose q 3) < thresh0 th) :
    (d, finalScoreSpec idx tr (fractal_decompose q 3))
        ∈ idx.candidatesFor (fractal_decompose q 3) th
      ∧ (((qpairs (fractal_decompose q 3)).map (fun x => weight x.1)).sum = 0
          ↔ (fractal_decompose q 3).all (fun ls => ls.2.isEmpty) = true) := by
  constructor
  · rw [candidatesFor_eq, ← final_score_eq_spec]
    exact List.mem_map_of_mem _ (List.mem_filter.mpr ⟨hmem, by simpa using hsurv⟩)
  · rw [sum_weights_eq_zero_iff, qpairs_eq_nil_iff]
    simp [List.all_eq_true, List.isEmpty_iff]

/-- Claim C2: the pruning stage keeps exactly the candidates whose root
score is not strictly below `thresholds[0]`.  The root score agrees with
the specification formula (set-bit count over the pooled index list of the
whole query divided by the total count pooled, 0 when the total is 0), and
the threshold defaults to `0.01` when the mapping omits key 0. -/
theorem claim2_pruning (idx : FSBIIndex) (q : String) (th : List (Nat × Rat)) :
    idx.candidatesFor (fractal_decompose q 3) th
      = (idx.trees.filter
          (fun dt =>
            !decide (rootScoreSpec idx dt.2.root (fractal_decompose q 3) < thresh0 th))).map
          (fun dt => (dt.1, idx.final_score dt.2 (fractal_decompose q 3)))
      ∧ (∀ root, idx.root_score root (fractal_decompose q 3)
          = rootScoreSpec idx root (fractal_decompose q 3))
      ∧ (List.lookup 0 th = none → thresh0 th = 1 / 100) := by
  refine ⟨?_, fun root => root_score_eq_spec idx root _, fun h => by simp [thresh0, h]⟩
  rw [candidatesFor_eq]
  simp only [root_score_eq_spec]

/-- Claim C3: for every query, the returned list is sorted by score
descending, ties keep the relative order the documents have in the
insertion-ordered candidate pass (stable sort, expressed per score value),
the list has length at most `top_k`, and every returned score lies in
`[0, 1]`. -/
theorem claim3_query_output (idx : FSBIIndex) (q : String) (top_k : Nat)
    (th : Option (List (Nat × Rat))) :
    List.Pairwise (fun a b : String × Rat => b.2 ≤ a.2) (idx.query q top_k th)
      ∧ (idx.query q top_k th).length ≤ top_k
      ∧ (∀ p ∈ idx.query q top_k th, 0 ≤ p.2 ∧ p.2 ≤ 1)
      ∧ (∀ v : Rat,
          List.IsPrefix
            ((idx.query q top_k th).filter (fun p => decide (p.2 = v)))
            ((idx.candidatesFor (fractal_decompose q 3) (th.getD [])).filter
              (fun p => decide (p.2 = v)))) := by
  simp only [FSBIIndex.query]
  refine ⟨?_, ?_, ?_, ?_⟩
  · exact (sortDesc_pairwise _).sublist (List.take_sublist _ _)
  · simp
  · intro p hp
    have hp1 : p ∈ sortDesc (idx.candidatesFor (fractal_decompose q 3) (th.getD [])) :=
      List.mem_of_mem_take hp
    have hp2 : p ∈ idx.candidatesFor (fractal_decompose q 3) (th.getD []) :=
      (sortDesc_perm _).mem_iff.mp hp1
    rw [candidatesFor_eq] at hp2
    obtain ⟨dt, _, rfl⟩ := List.mem_map.mp hp2
    exact ⟨final_score_nonneg idx dt.2 _, final_score_le_one idx dt.2 _⟩
  · intro v
    have hpre : List.IsPrefix
        ((sortDesc (idx.candidatesFor (fractal_decompose q 3) (th.getD []))).take top_k)
        (sortDesc (idx.candidatesFor (fractal_decompose q 3) (th.getD []))) :=
      ⟨(sortDesc (idx.candidatesFor (fractal_decompose q 3) (th.getD []))).drop top_k,
        List.take_append_drop _ _⟩
    obtain ⟨t, ht⟩ := hpre
    refine ⟨t.filter (fun p => decide (p.2 = v)), ?_⟩
    rw [← sortDesc_filter_eq (idx.candidatesFor (fractal_decompose q 3) (th.getD [])) v,
      ← List.filter_append, ht]

/-! ### Claim theorems C4 - C7 -/

/-- Claim C4: decomposition is deterministic (the embedding is a pure
function, so two calls agree definitionally) and follows the level
scheme: `decompose("The Cat", 3)` has level 3 `["the","cat"]`, level 1
the six non-space characters of `"the cat"` in order, level 2 the bigrams
`"th","he"` then `"ca","at"` with none spanning the token boundary, and
level 4 resp. 5 present with the single phrase resp. an empty list;
and for every text and `max_phrase_len` the levels `1` through
`3 + max_phrase_len - 1` are all present, in order (so levels with no
subsequences carry an empty list rather than being omitted). -/
theorem claim4_decomposition :
    fractal_decompose "The Cat" 3 = fractal_decompose "The Cat" 3
      ∧ fractal_decompose "The Cat" 3 =
          [(1, ["t", "h", "e", "c", "a", "t"]),
           (2, ["th", "he", "ca", "at"]),
           (3, ["the", "cat"]),
           (4, ["the cat"]),
           (5, [])]
      ∧ ∀ (text : String) (mpl : Nat),
          (fractal_decompose text mpl).map Prod.fst
            = [1, 2, 3] ++ (List.range (mpl - 1)).map (fun j => j + 4) := by
  refine ⟨rfl, by decide, ?_⟩
  intro text mpl
  simp only [fractal_decompose, List.map_append, List.map_cons, List.map_nil,
    List.map_map]
  congr 1
  apply List.map_congr_left
  intro j _
  simp only [Function.comp_apply]
  omega

theorem buildTree_index_document (idx : FSBIIndex) (d0 t0 : String)
    (m0 : Option Meta) (d t : String) :
    (idx.index_document d0 t0 m0).buildTree d t = idx.buildTree d t := by
  cases idx
  rfl

theorem buildTree_congr_state (m kl ks : Nat) (lh sh : String → Nat → List Nat)
    (docs docs' : List (String × DocEntry)) (trees trees' : List (String × IndexTree))
    (d t : String) :
    FSBIIndex.buildTree ⟨m, kl, ks, lh, sh, docs, trees⟩ d t
      = FSBIIndex.buildTree ⟨m, kl, ks, lh, sh, docs', trees'⟩ d t := rfl

/-- Claim C5: `index_document` is idempotent: indexing the same
`(doc_id, text, metadata)` twice in succession yields exactly the state
(in particular the stored tree, root and children bit-for-bit) obtained by
indexing once. -/
theorem claim5_idempotent (idx : FSBIIndex) (d t : String) (meta : Option Meta) :
    (idx.index_document d t meta).index_document d t meta
      = idx.index_document d t meta := by
  cases idx with
  | mk m kl ks lh sh docs trees =>
    simp only [FSBIIndex.index_document]
    rw [setAssoc_setAssoc, setAssoc_setAssoc,
      buildTree_congr_state m kl ks lh sh
        (setAssoc docs d ⟨t, meta.getD []⟩) docs
        (setAssoc trees d (FSBIIndex.buildTree ⟨m, kl, ks, lh, sh, docs, trees⟩ d t))
        trees d t]

theorem index_document_trees (idx : FSBIIndex) (d t : String) (meta : Option Meta) :
    (idx.index_document d t meta).trees = setAssoc idx.trees d (idx.buildTree d t) :=
  rfl

theorem index_document_docs (idx : FSBIIndex) (d t : String) (meta : Option Meta) :
    (idx.index_document d t meta).docs = setAssoc idx.docs d ⟨t, meta.getD []⟩ :=
  rfl

/-- Claim C6: re-indexing an existing `doc_id` with different text fully
replaces that document's tree and entry rather than merging: the stored
tree equals the tree built from the new text alone (so no bit set by the
old text survives unless the new text sets it), the stored entry carries
the new text and metadata, and every other `doc_id`'s tree and entry are
unchanged by the call. -/
theorem claim6_replacement (idx : FSBIIndex) (d t1 t2 : String)
    (m1 m2 : Option Meta) (d' : String) (hne : d' ≠ d) :
    List.lookup d ((idx.index_document d t1 m1).index_document d t2 m2).trees
        = some (idx.buildTree d t2)
      ∧ List.lookup d ((idx.index_document d t1 m1).index_document d t2 m2).docs
          = some ⟨t2, m2.getD []⟩
      ∧ List.lookup d' ((idx.index_document d t1 m1).index_document d t2 m2).trees
          = List.lookup d' (idx.index_document d t1 m1).trees
      ∧ List.lookup d' ((idx.index_document d t1 m1).index_document d t2 m2).docs
          = List.lookup d' (idx.index_document d t1 m1).docs := by
  refine ⟨?_, ?_, ?_, ?_⟩
  · rw [index_document_trees, lookup_setAssoc_self, buildTree_index_document]
  · rw [index_document_docs, lookup_setAssoc_self]
  · rw [index_document_trees (idx.index_document d t1 m1) d t2 m2,
      lookup_setAssoc_ne _ _ _ _ hne]
  · rw [index_document_docs (idx.index_document d t1 m1) d t2 m2,
      lookup_setAssoc_ne _ _ _ _ hne]

/-- Claim C7: BitSet growth is monotone and export is non-mutating: after
`insert_indexes`, every previously-set bit remains set and the population
count never decreases; and `noisy_bits` with flip probability 0 returns an
exact copy of the bit vector (the embedding is pure, mirroring the
copy-then-flip source, so the original node is never mutated). -/
theorem claim7_bitset (n : BloomNode) (ids : List Nat) (j : Nat)
    (coin : Nat → Bool) (h : bitAt n.bits j = true) :
    bitAt (n.insert_indexes ids).bits j = true
      ∧ n.bits.count true ≤ (n.insert_indexes ids).bits.count true
      ∧ n.noisy_bits 0 coin = n.bits := by
  refine ⟨?_, ?_, ?_⟩
  · exact bitAt_insBits_mono n.m ids n.bits j h
  · exact count_insBits_le n.m ids n.bits
  · simp [BloomNode.noisy_bits]

/-! ### Whitespace-only text lemmas and claim C8 -/

theorem pyStrip_all_space (s : List Char) (h : ∀ c ∈ s, isSpace c = true) :
    pyStrip s = [] := by
  unfold pyStrip
  rw [List.dropWhile_eq_nil_iff.mpr h]
  rfl

theorem phrases_nil_tokens (L : Nat) (hL : 2 ≤ L) : phrases [] L = [] := by
  unfold phrases
  have h0 : ([] : List (List Char)).length + 1 - L = 0 := by
    simp only [List.length_nil, Nat.zero_add]
    omega
  rw [h0]
  rfl

theorem fractal_decompose_all_space (text : String) (mpl : Nat)
    (h : ∀ c ∈ text.toList, isSpace c = true) :
    ∀ ls ∈ fractal_decompose text mpl, ls.2 = [] := by
  intro ls hls
  simp only [fractal_decompose, pyStrip_all_space text.toList h] at hls
  simp only [pyLower, List.map_nil, pySplit, pySplitAux, List.isEmpty_nil,
    if_true, List.filter_nil, List.flatMap_nil] at hls
  rcases List.mem_append.mp hls with hl | hl
  · simp only [List.mem_cons, List.not_mem_nil, or_false] at hl
    rcases hl with rfl | rfl | rfl <;> rfl
  · obtain ⟨j, _, rfl⟩ := List.mem_map.mp hl
    exact phrases_nil_tokens (j + 2) (by omega)

theorem foldl_inner_nil {α β γ : Type} (f : α × List β → γ → β → γ) :
    ∀ (l : List (α × List β)) (g : γ), (∀ ls ∈ l, ls.2 = []) →
      l.foldl (fun g ls => ls.2.foldl (f ls) g) g = g := by
  intro l
  induction l with
  | nil => intro g _; rfl
  | cons ls l ih =>
    intro g hl
    rw [List.foldl_cons, hl ls (List.mem_cons_self _ _), List.foldl_nil]
    exact ih g (fun x hx => hl x (List.mem_cons_of_mem _ hx))

theorem buildTree_empty_decomp (idx : FSBIIndex) (d t : String)
    (h : ∀ ls ∈ fractal_decompose t 3, ls.2 = []) :
    idx.buildTree d t = ⟨BloomNode.new idx.m 0 (d ++ "_root"), []⟩ := by
  unfold FSBIIndex.buildTree
  exact foldl_inner_nil _ (fractal_decompose t 3) _ h

theorem match_score_zero_bits (m lvl : Nat) (name : String) (idxs : List Nat) :
    BloomNode.match_score ⟨m, zeroBits m, lvl, name⟩ idxs = 0 := by
  simp only [BloomNode.match_score]
  have hfil : idxs.filter (fun i => bitAt (zeroBits m) (i % m)) = [] :=
    List.filter_eq_nil_iff.mpr (fun a _ => by simp [bitAt_zeroBits])
  rw [hfil]
  split <;> simp

theorem root_score_zero_bits (idx : FSBIIndex) (lvl : Nat) (name : String)
    (qd : List (Nat × List String)) :
    idx.root_score ⟨idx.m, zeroBits idx.m, lvl, name⟩ qd = 0 := by
  rw [root_score_eq_spec]
  simp only [rootScoreSpec]
  have hfil : (pooledIds idx qd).filter (fun i => bitAt (zeroBits idx.m) (i % idx.m)) = [] :=
    List.filter_eq_nil_iff.mpr (fun a _ => by simp [bitAt_zeroBits])
  rw [hfil]
  split <;> simp

theorem final_score_zero_tree (idx : FSBIIndex) (lvl : Nat) (name : String)
    (qd : List (Nat × List String)) :
    idx.final_score ⟨⟨idx.m, zeroBits idx.m, lvl, name⟩, []⟩ qd = 0 := by
  rw [final_score_eq_spec]
  simp only [finalScoreSpec]
  have hsw : ((qpairs qd).map
      (fun x => weight x.1 * matchSpec idx ⟨⟨idx.m, zeroBits idx.m, lvl, name⟩, []⟩ x)).sum
      = 0 := by
    apply List.sum_eq_zero
    intro b hb
    obtain ⟨a, _, rfl⟩ := List.mem_map.mp hb
    rw [show matchSpec idx ⟨⟨idx.m, zeroBits idx.m, lvl, name⟩, []⟩ a
        = BloomNode.match_score ⟨idx.m, zeroBits idx.m, lvl, name⟩ (idx.hashesOf a.2) from rfl,
      match_score_zero_bits, mul_zero]
  rw [hsw]
  split <;> simp

/-- Claim C8: an empty or whitespace-only text yields an entirely empty
decomposition and an all-zero root BitSet with no children; under any
query, both the pruning score and the refinement score computed for that
document's tree are 0; and every division in scoring is guarded by a
zero-denominator check yielding 0 (`match_score` of an empty index list is
0, and both scores over an empty decomposition are 0 rather than a
division failure). -/
theorem claim8_empty_text (idx : FSBIIndex) (d t q : String) (mpl : Nat)
    (n : BloomNode) (tr : IndexTree)
    (h : ∀ c ∈ t.toList, isSpace c = true) :
    ((fractal_decompose t mpl).all (fun ls => ls.2.isEmpty) = true)
      ∧ idx.buildTree d t = ⟨BloomNode.new idx.m 0 (d ++ "_root"), []⟩
      ∧ (idx.buildTree d t).root.bits = zeroBits idx.m
      ∧ idx.root_score (idx.buildTree d t).root (fractal_decompose q 3) = 0
      ∧ idx.final_score (idx.buildTree d t) (fractal_decompose q 3) = 0
      ∧ n.match_score [] = 0
      ∧ idx.root_score n [] = 0
      ∧ idx.final_score tr [] = 0 := by
  have hdec3 := fractal_decompose_all_space t 3 h
  have hbt := buildTree_empty_decomp idx d t hdec3
  refine ⟨?_, hbt, ?_, ?_, ?_, ?_, ?_, ?_⟩
  · rw [List.all_eq_true]
    intro ls hls
    simp [fractal_decompose_all_space t mpl h ls hls]
  · rw [hbt]
    rfl
  · rw [hbt]
    exact root_score_zero_bits idx 0 (d ++ "_root") _
  · rw [hbt]
    exact final_score_zero_tree idx 0 (d ++ "_root") _
  · simp [BloomNode.match_score]
  · simp [FSBIIndex.root_score, FSBIIndex.rootCounts]
  · simp [FSBIIndex.final_score, FSBIIndex.refineAccum]

/-! ### Claim C9: document count -/

/-- Claim C9: the core exposes a document-count operation — realized in the
source as `len(INDEX.docs)` inside the health endpoint — returning the
number of documents currently stored: it equals the size of the
`doc_id → DocumentEntry` map, the health response reports it, a fresh
index has count 0, and indexing grows it by one exactly for unseen
`doc_id`s. -/
theorem claim9_document_count (idx : FSBIIndex) (d t : String) (meta : Option Meta)
    (m kl ks : Nat) (lh sh : String → Nat → List Nat) :
    idx.document_count = idx.docs.length
      ∧ health idx = ("ok", idx.document_count)
      ∧ (FSBIIndex.mkIndex m kl ks lh sh).document_count = 0
      ∧ (idx.index_document d t meta).document_count
          = (if (List.lookup d idx.docs).isSome then idx.document_count
             else idx.document_count + 1) := by
  refine ⟨rfl, rfl, rfl, ?_⟩
  show (setAssoc idx.docs d ⟨t, meta.getD []⟩).length = _
  rw [length_setAssoc]
  rfl

/-! ### Root-superset invariant and claim C10 -/

theorem lookup_mem {α : Type} {l : List (String × α)} {k : String} {v : α}
    (h : List.lookup k l = some v) : (k, v) ∈ l := by
  obtain ⟨l₁, l₂, rfl, -⟩ := List.lookup_eq_some_iff.mp h
  exact List.mem_append_right _ (List.mem_cons_self _ _)

theorem foldl_preserves {α γ : Type} (P : γ → Prop) (step : γ → α → γ)
    (hstep : ∀ g a, P g → P (step g a)) :
    ∀ (l : List α) (g : γ), P g → P (l.foldl step g) := by
  intro l
  induction l with
  | nil => intro g hg; exact hg
  | cons a l ih => intro g hg; exact ih _ (hstep g a hg)

theorem buildStep_inv (idx : FSBIIndex) (lvl : Nat) (subseq : String)
    (tr : IndexTree) (h : TreeInv idx.m tr) :
    TreeInv idx.m
      ⟨tr.root.insert_indexes (idx.hashesOf subseq),
       setAssoc tr.children (child_name lvl subseq)
         (((List.lookup (child_name lvl subseq) tr.children).getD
             (BloomNode.new idx.m lvl (child_name lvl subseq))).insert_indexes
           (idx.hashesOf subseq))⟩ := by
  obtain ⟨hm, hlen, hch⟩ := h
  refine ⟨hm, ?_, ?_⟩
  · show (insBits tr.root.m tr.root.bits (idx.hashesOf subseq)).length = idx.m
    rw [length_insBits, hlen]
  · intro p hp
    rcases mem_setAssoc _ _ _ p hp with rfl | hmem
    · -- the updated (or fresh) child
      rcases hlk : List.lookup (child_name lvl subseq) tr.children with _ | c
      · -- fresh child created from all-zero bits
        simp only [hlk, Option.getD_none]
        refine ⟨rfl, ?_, ?_⟩
        · show (insBits idx.m (zeroBits idx.m) (idx.hashesOf subseq)).length = idx.m
          rw [length_insBits]
          simp [zeroBits]
        · intro j hj
          have hj' : bitAt (insBits idx.m (zeroBits idx.m) (idx.hashesOf subseq)) j = true :=
            hj
          rcases (bitAt_insBits _ _ _ _).mp hj' with hj0 | ⟨i, hi, hji, hjlen⟩
          · rw [bitAt_zeroBits] at hj0
            exact absurd hj0 (by simp)
          · show bitAt (insBits tr.root.m tr.root.bits (idx.hashesOf subseq)) j = true
            apply (bitAt_insBits _ _ _ _).mpr
            rw [hm, hlen]
            refine Or.inr ⟨i, hi, hji, ?_⟩
            simpa [zeroBits] using hjlen
      · -- existing child: its old bits are below the old root bits
        have hcmem := lookup_mem hlk
        obtain ⟨hcm, hclen, hcbits⟩ := hch _ hcmem
        simp only [hlk, Option.getD_some]
        refine ⟨hcm, ?_, ?_⟩
        · show (insBits c.m c.bits (idx.hashesOf subseq)).length = idx.m
          rw [length_insBits, hclen]
        · intro j hj
          rcases (bitAt_insBits _ _ _ _).mp hj with hj0 | ⟨i, hi, hji, hjlen⟩
          · show bitAt (insBits tr.root.m tr.root.bits (idx.hashesOf subseq)) j = true
            exact bitAt_insBits_mono _ _ _ _ (hcbits j hj0)
          · show bitAt (insBits tr.root.m tr.root.bits (idx.hashesOf subseq)) j = true
            apply (bitAt_insBits _ _ _ _).mpr
            rw [hcm] at hji
            rw [hm]
            refine Or.inr ⟨i, hi, hji, ?_⟩
            rw [hlen]
            rw [hclen] at hjlen
            exact hjlen
    · -- untouched children: monotone root growth
      obtain ⟨hcm, hclen, hcbits⟩ := hch _ hmem
      refine ⟨hcm, hclen, ?_⟩
      intro j hj
      show bitAt (insBits tr.root.m tr.root.bits (idx.hashesOf subseq)) j = true
      exact bitAt_insBits_mono _ _ _ _ (hcbits j hj)

theorem buildTree_inv (idx : FSBIIndex) (d t : String) :
    TreeInv idx.m (idx.buildTree d t) := by
  unfold FSBIIndex.buildTree
  apply foldl_preserves (TreeInv idx.m) _ ?_ (fractal_decompose t 3)
  · refine ⟨rfl, by simp [BloomNode.new, zeroBits], ?_⟩
    intro p hp
    exact absurd hp (List.not_mem_nil p)
  · intro tr lvl_ss htr
    apply foldl_preserves (TreeInv idx.m) _ ?_ lvl_ss.2 tr htr
    intro tr' s htr'
    exact buildStep_inv idx lvl_ss.1 s tr' htr'

theorem index_document_m (idx : FSBIIndex) (d t : String) (meta : Option Meta) :
    (idx.index_document d t meta).m = idx.m := rfl

theorem applyOps_inv (ops : List (String × String × Option Meta)) :
    ∀ (idx : FSBIIndex), (∀ p ∈ idx.trees, TreeInv idx.m p.2) →
      ∀ p ∈ (applyOps idx ops).trees, TreeInv (applyOps idx ops).m p.2 := by
  induction ops with
  | nil => intro idx h; exact h
  | cons op ops ih =>
    intro idx h
    apply ih
    intro p hp
    rw [index_document_m]
    rw [index_document_trees] at hp
    rcases mem_setAssoc _ _ _ p hp with rfl | hmem
    · exact buildTree_inv idx op.1 op.2.1
    · exact h p hmem

/-- Claim C10 (implicit root-superset invariant): after any sequence of
`index_document` calls starting from a fresh index, for every stored
document, every bit set in any of its child BitSets is also set in that
document's root BitSet, because each subsequence's combined index set is
inserted into the root and into the corresponding child in the same
step. -/
theorem claim10_root_superset (m kl ks : Nat) (lh sh : String → Nat → List Nat)
    (ops : List (String × String × Option Meta)) (d : String) (tr : IndexTree)
    (cn : String) (child : BloomNode) (j : Nat)
    (h1 : List.lookup d (applyOps (FSBIIndex.mkIndex m kl ks lh sh) ops).trees
            = some tr)
    (h2 : (cn, child) ∈ tr.children)
    (h3 : bitAt child.bits j = true) :
    bitAt tr.root.bits j = true := by
  have hmem := lookup_mem h1
  have hinv := applyOps_inv ops (FSBIIndex.mkIndex m kl ks lh sh)
    (fun p hp => absurd hp (List.not_mem_nil p)) (d, tr) hmem
  exact (hinv.2.2 (cn, child) h2).2.2 j h3

/-! ### Witnesses -/

theorem root_score_nonneg (idx : FSBIIndex) (root : BloomNode)
    (qd : List (Nat × List String)) : 0 ≤ idx.root_score root qd := by
  simp only [FSBIIndex.root_score]
  split
  · positivity
  · exact le_refl 0

/-- Witness for C1: a concrete index, query, and surviving candidate. -/
theorem claim1_refinement_score_witness :
    ("d1", finalScoreSpec wIdx wTr (fractal_decompose "ab" 3))
        ∈ wIdx.candidatesFor (fractal_decompose "ab" 3) [(0, 0)]
      ∧ (((qpairs (fractal_decompose "ab" 3)).map (fun x => weight x.1)).sum = 0
          ↔ (fractal_decompose "ab" 3).all (fun ls => ls.2.isEmpty) = true) :=
  claim1_refinement_score wIdx "ab" [(0, 0)] "d1" wTr (by decide)
    (not_lt.mpr (le_trans
      (le_of_eq (show thresh0 [(0, 0)] = 0 from rfl))
      (root_score_nonneg wIdx wTr.root (fractal_decompose "ab" 3))))

/-- Witness for C6: re-indexing `"d1"` and the frame for `"d2"`. -/
theorem claim6_replacement_witness :
    List.lookup "d1"
        ((wBase.index_document "d1" "a" none).index_document "d1" "b" none).trees
        = some (wBase.buildTree "d1" "b")
      ∧ List.lookup "d1"
          ((wBase.index_document "d1" "a" none).index_document "d1" "b" none).docs
          = some ⟨"b", []⟩
      ∧ List.lookup "d2"
          ((wBase.index_document "d1" "a" none).index_document "d1" "b" none).trees
          = List.lookup "d2" (wBase.index_document "d1" "a" none).trees
      ∧ List.lookup "d2"
          ((wBase.index_document "d1" "a" none).index_document "d1" "b" none).docs
          = List.lookup "d2" (wBase.index_document "d1" "a" none).docs :=
  claim6_replacement wBase "d1" "a" "b" none none "d2" (by decide)

/-- Witness for C7: inserting index 1 into a node whose bit 0 is set. -/
theorem claim7_bitset_witness :
    bitAt (wNode.insert_indexes [1]).bits 0 = true
      ∧ wNode.bits.count true ≤ (wNode.insert_indexes [1]).bits.count true
      ∧ wNode.noisy_bits 0 (fun _ => false) = wNode.bits :=
  claim7_bitset wNode [1] 0 (fun _ => false) (by decide)

/-- Witness for C8: a whitespace-only text in the concrete index. -/
theorem claim8_empty_text_witness :
    ((fractal_decompose " \t" 3).all (fun ls => ls.2.isEmpty) = true)
      ∧ wBase.buildTree "d1" " \t" = ⟨BloomNode.new wBase.m 0 ("d1" ++ "_root"), []⟩
      ∧ (wBase.buildTree "d1" " \t").root.bits = zeroBits wBase.m
      ∧ wBase.root_score (wBase.buildTree "d1" " \t").root (fractal_decompose "hi" 3) = 0
      ∧ wBase.final_score (wBase.buildTree "d1" " \t") (fractal_decompose "hi" 3) = 0
      ∧ wNode.match_score [] = 0
      ∧ wBase.root_score wNode [] = 0
      ∧ wBase.final_score wTr [] = 0 :=
  claim8_empty_text wBase "d1" " \t" "hi" 3 wNode wTr (by decide)

/-- Witness for C10: a child bit of the concrete tree is set in its root. -/
theorem claim10_root_superset_witness :
    bitAt wTr.root.bits 1 = true :=
  claim10_root_superset 4 1 1 wLex wSem [("d1", "ab", none)] "d1" wTr "l1:a" wChild 1
    (by decide) (by decide) (by decide)
